import Mathlib

/-!
Verification development for the dyn-api-profile repository.

Two components are embedded shallowly:

* `Runtime` models `src/profiling_runtime.c`: a fixed-capacity table of
  profile entries keyed by (api_name, caller_name), updated by
  `profiling_log`, and flushed by `write_profile_data` at process exit.
  C strings are modelled as `List Char`; `strncpy` truncation to
  `MAX_NAME_LEN - 1` bytes is `truncName`; `struct timespec` values from
  the monotonic clock are modelled as `Nat` timestamps; the two
  `clock_gettime` reads inside one `profiling_log` call are the
  parameters `t1` (inside `find_or_create_entry`) and `t2` (the
  `last_call` update), with `t1 ≤ t2` for a monotonic clock.

* `Pass` models `src/DangerousAPIPass.cpp`: the two-phase scan-and-rewrite
  LLVM module pass. Instructions carry their callee (when statically
  known) and operands; the inserted `profiling_log` call is the
  `hookCall` constructor, carrying its two string-constant arguments.
-/

namespace DynApiProfile

namespace Runtime

/-- MAX_ENTRIES from profiling_runtime.c. -/
def MAX_ENTRIES : Nat := 1024

/-- MAX_NAME_LEN from profiling_runtime.c. -/
def MAX_NAME_LEN : Nat := 256

/-- Effect of strncpy(dst, src, MAX_NAME_LEN - 1) into a zero-initialized
buffer: the stored string is the first MAX_NAME_LEN - 1 characters. -/
def truncName (s : List Char) : List Char := s.take (MAX_NAME_LEN - 1)

/-- ProfileEntry from profiling_runtime.c. Timestamps are monotonic-clock
values modelled as naturals; last_call is zero-initialized at creation
(static storage) and only set by profiling_log. -/
structure ProfileEntry where
  api_name : List Char
  caller_name : List Char
  count : Nat
  first_call : Nat
  last_call : Nat
deriving DecidableEq, Repr

/-- The global profile_data array together with num_entries: the first
num_entries live slots, in insertion order. -/
abbrev ProfileTable := List ProfileEntry

/-- Match condition of the search loop in find_or_create_entry: strcmp of
both stored names against the (untruncated) inputs. -/
def entry_matches (api_name caller_name : List Char) (e : ProfileEntry) : Bool :=
  e.api_name == api_name && e.caller_name == caller_name

/-- The search loop of find_or_create_entry: index of the first entry whose
stored names strcmp-equal the inputs. -/
def findEntryIdx (api_name caller_name : List Char) : ProfileTable → Option Nat
  | [] => none
  | e :: rest =>
    if entry_matches api_name caller_name e then some 0
    else (findEntryIdx api_name caller_name rest).map (· + 1)

/-- find_or_create_entry from profiling_runtime.c. Returns the index of the
found or created entry (none when the table is full), plus the table after a
possible creation. `t1` is the clock_gettime value read for first_call. -/
def find_or_create_entry (api_name caller_name : List Char) (t1 : Nat)
    (tbl : ProfileTable) : Option Nat × ProfileTable :=
  match findEntryIdx api_name caller_name tbl with
  | some i => (some i, tbl)
  | none =>
    if tbl.length < MAX_ENTRIES then
      (some tbl.length,
       tbl ++ [{ api_name := truncName api_name, caller_name := truncName caller_name,
                 count := 0, first_call := t1, last_call := 0 }])
    else (none, tbl)

/-- Replace the element at an index, leaving other positions unchanged
(models an in-place array update at a valid index). -/
def modifyIdx (f : ProfileEntry → ProfileEntry) : Nat → ProfileTable → ProfileTable
  | _, [] => []
  | 0, e :: rest => f e :: rest
  | n + 1, e :: rest => e :: modifyIdx f n rest

/-- The update profiling_log performs on the found or created entry:
count++ and last_call := clock_gettime value `t2`. -/
def upd_entry (t2 : Nat) (e : ProfileEntry) : ProfileEntry :=
  { e with count := e.count + 1, last_call := t2 }

/-- profiling_log from profiling_runtime.c, the body under the mutex:
find or create the entry, and when an index was obtained, increment its
count and set its last_call. -/
def profiling_log (api_name caller_name : List Char) (t1 t2 : Nat)
    (tbl : ProfileTable) : ProfileTable :=
  match find_or_create_entry api_name caller_name t1 tbl with
  | (some i, tbl2) => modifyIdx (upd_entry t2) i tbl2
  | (none, tbl2) => tbl2

/-- Tables reachable from the zero-initialized state by profiling_log calls
whose clock reads are monotone: the bound is the last clock value seen. -/
inductive ReachableAt : Nat → ProfileTable → Prop where
  | init : ReachableAt 0 []
  | step {T t1 t2 : Nat} {tbl : ProfileTable} (api_name caller_name : List Char)
      (h : ReachableAt T tbl) (h1 : T ≤ t1) (h2 : t1 ≤ t2) :
      ReachableAt t2 (profiling_log api_name caller_name t1 t2 tbl)

/-- The total_calls accumulation loop of write_profile_data. -/
def total_calls (tbl : ProfileTable) : Nat :=
  tbl.foldl (fun acc e => acc + e.count) 0

/-- time_diff_ms from profiling_runtime.c, kept in exact integer clock units
rather than floating milliseconds. -/
def time_diff_ms (startT endT : Nat) : Int :=
  (endT : Int) - (startT : Int)

/-- One element of the profile_data array of the JSON report. -/
structure ReportEntry where
  api_name : List Char
  caller_function : List Char
  execution_count : Nat
  percentage_of_total : Rat
  duration_ms : Int
deriving DecidableEq, Repr

/-- The JSON document written by write_profile_data. -/
structure Report where
  profile_data : List ReportEntry
  total_dangerous_calls : Nat
  unique_call_sites : Nat
deriving DecidableEq, Repr

/-- The JSON-building part of write_profile_data: per-entry percentage is
guarded by total_calls > 0, duration is last_call minus first_call. -/
def mkReport (tbl : ProfileTable) : Report :=
  { profile_data := tbl.map (fun e =>
      { api_name := e.api_name
        caller_function := e.caller_name
        execution_count := e.count
        percentage_of_total :=
          if 0 < total_calls tbl then
            ((e.count : Rat) * 100) / (total_calls tbl : Rat)
          else 0
        duration_ms := time_diff_ms e.first_call e.last_call })
    total_dangerous_calls := total_calls tbl
    unique_call_sites := tbl.length }

/-- One line of the console summary printed by write_profile_data. -/
inductive ConsoleLine where
  | header
  | totalLine (n : Nat)
  | uniqueLine (n : Nat)
  | pathLine
  | topHeader
  | entryLine (caller api : List Char) (count : Nat) (pct : Rat)
deriving DecidableEq, Repr

/-- The top-call-sites loop: for (i = 0; i < num_entries && i < 10; i++),
printing caller, api, count and the unguarded percentage count*100/total. -/
def consoleEntries (total : Nat) : Nat → ProfileTable → List ConsoleLine
  | _, [] => []
  | i, e :: rest =>
    if i < 10 then
      ConsoleLine.entryLine e.caller_name e.api_name e.count
          ((e.count : Rat) * 100 / (total : Rat))
        :: consoleEntries total (i + 1) rest
    else []

/-- The full console summary of write_profile_data, in print order. -/
def consoleOutput (tbl : ProfileTable) : List ConsoleLine :=
  ConsoleLine.header
    :: ConsoleLine.totalLine (total_calls tbl)
    :: ConsoleLine.uniqueLine tbl.length
    :: ConsoleLine.pathLine
    :: ConsoleLine.topHeader
    :: consoleEntries (total_calls tbl) 0 tbl

/-- Message written to stderr by write_profile_data. -/
inductive ErrMsg where
  | couldNotOpenOutput
deriving DecidableEq, Repr

/-- Observable effects of one write_profile_data run. -/
structure ExitOutput where
  errOut : List ErrMsg
  jsonOut : Option Report
  consoleOut : List ConsoleLine
  tableAfter : ProfileTable
deriving DecidableEq, Repr

/-- write_profile_data from profiling_runtime.c. `openOk` models whether
fopen of the fixed output path succeeded; on failure the function prints an
error and returns at once, never reaching the report or the console
summary, and never touching the table. -/
def write_profile_data (openOk : Bool) (tbl : ProfileTable) : ExitOutput :=
  if openOk then
    { errOut := [], jsonOut := some (mkReport tbl),
      consoleOut := consoleOutput tbl, tableAfter := tbl }
  else
    { errOut := [ErrMsg.couldNotOpenOutput], jsonOut := none,
      consoleOut := [], tableAfter := tbl }

/-- Per-entry invariant at clock bound T: at least one recorded call,
timestamps ordered, last update no later than T. -/
def EntryInv (T : Nat) (e : ProfileEntry) : Prop :=
  1 ≤ e.count ∧ e.first_call ≤ e.last_call ∧ e.last_call ≤ T

/-- N repeated log_call invocations with one fixed key, with the pair of
clock reads of each invocation supplied as a list. -/
def logRun (a c : List Char) (ts : List (Nat × Nat)) (tbl : ProfileTable) : ProfileTable :=
  ts.foldl (fun s p => profiling_log a c p.1 p.2 s) tbl

/-- The key stored in an entry, as the pair of its two name fields. -/
def storedKey (e : ProfileEntry) : (List Char) × (List Char) :=
  (e.api_name, e.caller_name)

/-- Truncation applied to both components of a key. -/
def truncKey (k : (List Char) × (List Char)) : (List Char) × (List Char) :=
  (truncName k.1, truncName k.2)

/-- One log_call per key of a list of keys, in order, with clock reads 0. -/
def logKeys (l : List ((List Char) × (List Char))) (tbl : ProfileTable) : ProfileTable :=
  l.foldl (fun s k => profiling_log k.1 k.2 0 0 s) tbl

end Runtime

namespace Pass

/-- A statically known callee: a named function reference, possibly an
intrinsic. -/
structure Callee where
  name : List Char
  isIntrinsic : Bool
deriving DecidableEq, Repr

/-- An LLVM instruction, abstracted to what the pass inspects: call
instructions carry an optional statically known callee (none models an
indirect call) and opaque operand identifiers; `hookCall api caller`
is the inserted `call void @profiling_log(api, caller)` with its two
string-constant arguments; `other` is any non-call instruction. -/
inductive Instruction where
  | call (callee : Option Callee) (operands : List Nat)
  | hookCall (api caller : List Char)
  | other (tag : Nat)
deriving DecidableEq, Repr

/-- A basic block: a sequence of instructions. -/
structure BasicBlock where
  insts : List Instruction
deriving DecidableEq, Repr

/-- An LLVM function: name, declaration flag, body blocks. -/
structure Func where
  name : List Char
  isDeclaration : Bool
  blocks : List BasicBlock
deriving DecidableEq, Repr

/-- An LLVM module: its list of functions. -/
structure LLVMModule where
  functions : List Func
deriving DecidableEq, Repr

/-- The DangerousAPIs vector from DangerousAPIPass.cpp: currently the
single entry "strcpy". -/
def DangerousAPIs : List (List Char) := [['s', 't', 'r', 'c', 'p', 'y']]

/-- The inner name-comparison loop over DangerousAPIs, with its break on
the first match. -/
def matchLoop (name : List Char) : List (List Char) → Bool
  | [] => false
  | api :: rest => if name == api then true else matchLoop name rest

/-- The scan-phase condition on one instruction: a call whose callee is
statically known (CalledFunc non-null), not an intrinsic, and whose name
matches the DangerousAPIs loop. -/
def shouldInstr : Instruction → Bool
  | .call (some cal) _ => !cal.isIntrinsic && matchLoop cal.name DangerousAPIs
  | _ => false

/-- CI->getCalledFunction()->getName() for a call with a known callee. -/
def calleeNameOf : Instruction → List Char
  | .call (some cal) _ => cal.name
  | _ => []

/-- The scan phase of DangerousAPIPass::run for one function: skip
declarations; otherwise walk every instruction of every block and
push_back each matching call into CallsToInstrument. -/
def collectCalls (F : Func) : List Instruction :=
  if F.isDeclaration then []
  else
    F.blocks.foldl (fun acc bb =>
      bb.insts.foldl (fun acc2 i =>
        if shouldInstr i then acc2 ++ [i] else acc2) acc) []

/-- The rewrite phase on one instruction sequence: insert a hookCall with
the callee name and the enclosing function name immediately before each
matching call, leaving every original instruction in place. -/
def rewriteInsts (caller : List Char) : List Instruction → List Instruction
  | [] => []
  | i :: rest =>
    if shouldInstr i then
      Instruction.hookCall (calleeNameOf i) caller :: i :: rewriteInsts caller rest
    else i :: rewriteInsts caller rest

/-- One scan-and-rewrite iteration of the function loop of
DangerousAPIPass::run: returns the rewritten function and the diagnostic
lines (callee name, enclosing function name) emitted to errs(), one per
instrumented call site. -/
def runFunction (F : Func) : Func × List (List Char × List Char) :=
  if F.isDeclaration then (F, [])
  else
    ({ F with blocks := F.blocks.map (fun bb => ⟨rewriteInsts F.name bb.insts⟩) },
     (collectCalls F).map (fun i => (calleeNameOf i, F.name)))

/-- The PreservedAnalyses result of the pass. -/
inductive PreservedAnalyses where
  | all
  | none
deriving DecidableEq, Repr

/-- The name string "profiling_log" passed to M.getOrInsertFunction. -/
def profiling_log_name : List Char :=
  ['p', 'r', 'o', 'f', 'i', 'l', 'i', 'n', 'g', '_', 'l', 'o', 'g']

/-- M.getOrInsertFunction(name, type): when the module already has a
function of that name it is returned unchanged; otherwise a new
declaration (no body) of that name is created and appended to the module
function list. This mutation happens before the scan, on every run, and
does not set the Modified flag. -/
def getOrInsertFunction (name : List Char) (M : LLVMModule) : LLVMModule :=
  if M.functions.any (fun F => F.name == name) then M
  else ⟨M.functions ++ [⟨name, true, []⟩]⟩

/-- The function loop and result of DangerousAPIPass::run, operating on
the module as it stands after the getOrInsertFunction call: rewrite every
function, collect all diagnostics, and return PreservedAnalyses::none
exactly when some call site was instrumented (the Modified flag),
otherwise PreservedAnalyses::all. -/
def runBody (M : LLVMModule) : LLVMModule × PreservedAnalyses × List (List Char × List Char) :=
  let results := M.functions.map runFunction
  let modified := results.any (fun r => !r.2.isEmpty)
  (⟨results.map (·.1)⟩,
   if modified then PreservedAnalyses.none else PreservedAnalyses.all,
   results.flatMap (·.2))

/-- DangerousAPIPass::run over a whole module: first get-or-insert the
profiling_log prototype — inserting a declaration into any module lacking
one, regardless of whether anything is instrumented — then scan and
rewrite every function of the resulting module. -/
def run (M : LLVMModule) : LLVMModule × PreservedAnalyses × List (List Char × List Char) :=
  runBody (getOrInsertFunction profiling_log_name M)

/-- Recognizer for the inserted logging-hook calls. -/
def isHook : Instruction → Bool
  | .hookCall _ _ => true
  | _ => false

/-- A module with no logging-hook calls in it: the shape of input modules,
which are scanned before any instrumentation exists. -/
def HookFree (M : LLVMModule) : Prop :=
  ∀ F ∈ M.functions, ∀ bb ∈ F.blocks, ∀ i ∈ bb.insts, isHook i = false

instance (M : LLVMModule) : Decidable (HookFree M) := by
  unfold HookFree; infer_instance

/-- Remove every logging-hook call from a module. -/
def eraseHooks (M : LLVMModule) : LLVMModule :=
  ⟨M.functions.map (fun F =>
    { F with blocks := F.blocks.map (fun bb => ⟨bb.insts.filter (fun i => !isHook i)⟩) })⟩

/-- Number of logging-hook calls present in a module. -/
def countHooks (M : LLVMModule) : Nat :=
  (M.functions.map (fun F =>
    (F.blocks.map (fun bb => (bb.insts.filter isHook).length)).sum)).sum

/-- Number of call sites the scan phase records across a module. -/
def totalSites (M : LLVMModule) : Nat :=
  (M.functions.map (fun F => (collectCalls F).length)).sum

end Pass

/-- Concrete key family for capacity scenarios: the replicate lengths keep
both components under the truncation bound and determine n uniquely. -/
def wkey (n : Nat) : (List Char) × (List Char) :=
  (List.replicate (n / 255 + 1) 'a', List.replicate (n % 255 + 1) 'b')

/-- 1025 pairwise distinct keys, one more than the table capacity. -/
def wkeys : List ((List Char) × (List Char)) :=
  (List.range (Runtime.MAX_ENTRIES + 1)).map wkey

/-- A concrete table at full capacity. -/
def wfull : Runtime.ProfileTable :=
  List.replicate Runtime.MAX_ENTRIES ⟨['z'], ['z'], 1, 0, 0⟩

/-- A concrete one-entry table produced by a single profiling_log call. -/
def wtbl : Runtime.ProfileTable := Runtime.profiling_log ['a'] ['f'] 0 1 []

/-- A concrete two-entry table with three recorded calls. -/
def wtbl6 : Runtime.ProfileTable := [⟨['a'], ['f'], 2, 0, 3⟩, ⟨['b'], ['g'], 1, 0, 2⟩]

/-- A concrete twelve-entry table, longer than the console print limit. -/
def wtbl7 : Runtime.ProfileTable :=
  (List.range 12).map (fun n => ⟨['a'], ['f'], n + 1, 0, 0⟩)

/-- A declaration-only function that nevertheless carries a strcpy call in
its block list, to exercise the declaration skip. -/
def wFdecl : Pass.Func :=
  ⟨['g'], true, [⟨[Pass.Instruction.call (some ⟨['s', 't', 'r', 'c', 'p', 'y'], false⟩) [0]]⟩]⟩

/-- A one-function module containing one direct strcpy call. -/
def wM1 : Pass.LLVMModule :=
  ⟨[⟨['m'], false,
    [⟨[Pass.Instruction.call (some ⟨['s', 't', 'r', 'c', 'p', 'y'], false⟩) [1, 2],
       Pass.Instruction.other 7]⟩]⟩]⟩

/-- A one-function module with no dangerous call. -/
def wM0 : Pass.LLVMModule := ⟨[⟨['m'], false, [⟨[Pass.Instruction.other 3]⟩]⟩]⟩

namespace Runtime

theorem findEntryIdx_eq_none_iff (a c : List Char) (tbl : ProfileTable) :
    findEntryIdx a c tbl = none ↔ ∀ e ∈ tbl, entry_matches a c e = false := by
  induction tbl with
  | nil => simp [findEntryIdx]
  | cons e rest ih =>
    by_cases h : entry_matches a c e
    · simp [findEntryIdx, h]
    · simp [findEntryIdx, h, ih]

theorem findEntryIdx_some {a c : List Char} {tbl : ProfileTable} {i : Nat}
    (h : findEntryIdx a c tbl = some i) :
    i < tbl.length ∧ ∃ e, tbl[i]? = some e ∧ entry_matches a c e = true := by
  induction tbl generalizing i with
  | nil => simp [findEntryIdx] at h
  | cons e rest ih =>
    by_cases hm : entry_matches a c e
    · simp [findEntryIdx, hm] at h
      subst h
      exact ⟨by simp, e, by simp, hm⟩
    · simp [findEntryIdx, hm, Option.map_eq_some'] at h
      obtain ⟨j, hj, rfl⟩ := h
      obtain ⟨hlt, e2, he2, hm2⟩ := ih hj
      exact ⟨by simpa using hlt, e2, by simpa using he2, hm2⟩

theorem length_modifyIdx (f : ProfileEntry → ProfileEntry) :
    ∀ (i : Nat) (l : ProfileTable), (modifyIdx f i l).length = l.length
  | i, [] => by cases i <;> rfl
  | 0, _ :: _ => rfl
  | n + 1, _ :: rest => by simp [modifyIdx, length_modifyIdx f n rest]

theorem modifyIdx_append (f : ProfileEntry → ProfileEntry) (l : ProfileTable)
    (x : ProfileEntry) : modifyIdx f l.length (l ++ [x]) = l ++ [f x] := by
  induction l with
  | nil => rfl
  | cons e rest ih => simp [modifyIdx, ih]

theorem getElem?_modifyIdx (f : ProfileEntry → ProfileEntry) (i j : Nat)
    (l : ProfileTable) :
    (modifyIdx f i l)[j]? = if i = j then l[j]?.map f else l[j]? := by
  induction l generalizing i j with
  | nil => cases i <;> simp [modifyIdx]
  | cons e rest ih =>
    match i, j with
    | 0, 0 => simp [modifyIdx]
    | 0, j + 1 => simp [modifyIdx]
    | i + 1, 0 => simp [modifyIdx]
    | i + 1, j + 1 =>
      simp only [modifyIdx, List.getElem?_cons_succ, ih]
      by_cases h : i = j <;> simp [h]

theorem mem_modifyIdx {f : ProfileEntry → ProfileEntry} {i : Nat}
    {l : ProfileTable} {x : ProfileEntry} (h : x ∈ modifyIdx f i l) :
    x ∈ l ∨ ∃ y ∈ l, x = f y := by
  induction l generalizing i with
  | nil => cases i <;> simp [modifyIdx] at h
  | cons e rest ih =>
    match i with
    | 0 =>
      simp [modifyIdx] at h
      rcases h with h | h
      · exact Or.inr ⟨e, by simp, h⟩
      · exact Or.inl (by simp [h])
    | n + 1 =>
      simp [modifyIdx] at h
      rcases h with h | h
      · exact Or.inl (by simp [h])
      · rcases ih h with h2 | ⟨y, hy, hxy⟩
        · exact Or.inl (by simp [h2])
        · exact Or.inr ⟨y, by simp [hy], hxy⟩

theorem profiling_log_found {a c : List Char} {tbl : ProfileTable} {i : Nat}
    (h : findEntryIdx a c tbl = some i) (t1 t2 : Nat) :
    profiling_log a c t1 t2 tbl = modifyIdx (upd_entry t2) i tbl := by
  simp [profiling_log, find_or_create_entry, h]

theorem profiling_log_create {a c : List Char} {tbl : ProfileTable}
    (h : findEntryIdx a c tbl = none) (hlen : tbl.length < MAX_ENTRIES) (t1 t2 : Nat) :
    profiling_log a c t1 t2 tbl =
      tbl ++ [⟨truncName a, truncName c, 1, t1, t2⟩] := by
  simp [profiling_log, find_or_create_entry, h, hlen, modifyIdx_append, upd_entry]

theorem profiling_log_full {a c : List Char} {tbl : ProfileTable}
    (h : findEntryIdx a c tbl = none) (hlen : ¬ tbl.length < MAX_ENTRIES) (t1 t2 : Nat) :
    profiling_log a c t1 t2 tbl = tbl := by
  simp [profiling_log, find_or_create_entry, h, hlen]

theorem length_profiling_log_cases (a c : List Char) (t1 t2 : Nat) (tbl : ProfileTable) :
    (profiling_log a c t1 t2 tbl).length = tbl.length ∨
      ((profiling_log a c t1 t2 tbl).length = tbl.length + 1 ∧
        tbl.length < MAX_ENTRIES) := by
  cases h : findEntryIdx a c tbl with
  | some i => left; rw [profiling_log_found h, length_modifyIdx]
  | none =>
    by_cases hlen : tbl.length < MAX_ENTRIES
    · right
      rw [profiling_log_create h hlen]
      simp [hlen]
    · left
      rw [profiling_log_full h hlen]

theorem length_le_profiling_log (a c : List Char) (t1 t2 : Nat) (tbl : ProfileTable) :
    tbl.length ≤ (profiling_log a c t1 t2 tbl).length := by
  rcases length_profiling_log_cases a c t1 t2 tbl with h | ⟨h, _⟩ <;> omega

theorem profiling_log_le_max (a c : List Char) (t1 t2 : Nat) (tbl : ProfileTable)
    (hle : tbl.length ≤ MAX_ENTRIES) :
    (profiling_log a c t1 t2 tbl).length ≤ MAX_ENTRIES := by
  rcases length_profiling_log_cases a c t1 t2 tbl with h | ⟨h, hlt⟩ <;> omega

theorem EntryInv.mono {T T2 : Nat} {e : ProfileEntry} (h : EntryInv T e)
    (hT : T ≤ T2) : EntryInv T2 e :=
  ⟨h.1, h.2.1, le_trans h.2.2 hT⟩

theorem entryInv_step {T t1 t2 : Nat} {tbl : ProfileTable}
    (hinv : ∀ e ∈ tbl, EntryInv T e) (h1 : T ≤ t1) (h2 : t1 ≤ t2)
    (a c : List Char) :
    ∀ e ∈ profiling_log a c t1 t2 tbl, EntryInv t2 e := by
  intro e he
  cases hf : findEntryIdx a c tbl with
  | some i =>
    rw [profiling_log_found hf] at he
    rcases mem_modifyIdx he with hmem | ⟨y, hy, rfl⟩
    · exact (hinv e hmem).mono (by omega)
    · obtain ⟨hc, hfl, hlT⟩ := hinv y hy
      exact ⟨by simp [upd_entry], by simp [upd_entry]; omega, by simp [upd_entry]⟩
  | none =>
    by_cases hlen : tbl.length < MAX_ENTRIES
    · rw [profiling_log_create hf hlen] at he
      rcases List.mem_append.mp he with hmem | hmem
      · exact (hinv e hmem).mono (by omega)
      · simp at hmem
        subst hmem
        exact ⟨le_refl 1, h2, le_refl t2⟩
    · rw [profiling_log_full hf hlen] at he
      exact (hinv e he).mono (by omega)

theorem reachable_inv {T : Nat} {tbl : ProfileTable} (h : ReachableAt T tbl) :
    ∀ e ∈ tbl, EntryInv T e := by
  induction h with
  | init => simp
  | step a c hr h1 h2 ih => exact entryInv_step ih h1 h2 a c

theorem reachable_le_max {T : Nat} {tbl : ProfileTable} (h : ReachableAt T tbl) :
    tbl.length ≤ MAX_ENTRIES := by
  induction h with
  | init => simp [MAX_ENTRIES]
  | step a c hr h1 h2 ih => exact profiling_log_le_max _ _ _ _ _ ih

theorem total_calls_eq_sum (tbl : ProfileTable) :
    total_calls tbl = (tbl.map (·.count)).sum := by
  have key : ∀ (l : ProfileTable) (n : Nat),
      l.foldl (fun acc e => acc + e.count) n = n + (l.map (·.count)).sum := by
    intro l
    induction l with
    | nil => simp
    | cons e rest ih => intro n; simp [ih]; omega
  simpa using key tbl 0

theorem length_le_total_calls {tbl : ProfileTable}
    (h : ∀ e ∈ tbl, 1 ≤ e.count) : tbl.length ≤ total_calls tbl := by
  rw [total_calls_eq_sum]
  induction tbl with
  | nil => simp
  | cons e rest ih =>
    have he := h e (by simp)
    have hr := ih (fun x hx => h x (by simp [hx]))
    simp
    omega

theorem truncName_eq_self {s : List Char} (h : s.length < MAX_NAME_LEN) :
    truncName s = s :=
  List.take_of_length_le (by simp [MAX_NAME_LEN] at h ⊢; omega)

theorem truncName_idem (s : List Char) : truncName (truncName s) = truncName s := by
  simp [truncName, List.take_take]

theorem logRun_singleton (a c : List Char) :
    ∀ (ts : List (Nat × Nat)) (k f0 l0 : Nat),
      ∃ l1, logRun a c ts [⟨a, c, k, f0, l0⟩] = [⟨a, c, k + ts.length, f0, l1⟩]
  | [], k, f0, l0 => ⟨l0, by simp [logRun]⟩
  | p :: rest, k, f0, l0 => by
    have hstep : profiling_log a c p.1 p.2 [⟨a, c, k, f0, l0⟩] = [⟨a, c, k + 1, f0, p.2⟩] := by
      simp [profiling_log, find_or_create_entry, findEntryIdx, entry_matches,
        modifyIdx, upd_entry]
    obtain ⟨l1, h1⟩ := logRun_singleton a c rest (k + 1) f0 p.2
    refine ⟨l1, ?_⟩
    have harr : k + 1 + rest.length = k + (rest.length + 1) := by omega
    calc logRun a c (p :: rest) [⟨a, c, k, f0, l0⟩]
        = logRun a c rest (profiling_log a c p.1 p.2 [⟨a, c, k, f0, l0⟩]) := by
          simp [logRun]
      _ = logRun a c rest [⟨a, c, k + 1, f0, p.2⟩] := by rw [hstep]
      _ = [⟨a, c, k + 1 + rest.length, f0, l1⟩] := h1
      _ = [⟨a, c, k + (p :: rest).length, f0, l1⟩] := by rw [harr]; simp

theorem truncKey_idem (k : (List Char) × (List Char)) :
    truncKey (truncKey k) = truncKey k := by
  simp [truncKey, truncName_idem]

theorem entry_matches_iff {a c : List Char} {e : ProfileEntry} :
    entry_matches a c e = true ↔ storedKey e = (a, c) := by
  simp [entry_matches, storedKey, Prod.ext_iff]

theorem logKeys_length :
    ∀ (l : List ((List Char) × (List Char))) (tbl : ProfileTable),
      l.Pairwise (fun k1 k2 => truncKey k1 ≠ truncKey k2) →
      (∀ k ∈ l, ∀ e ∈ tbl, storedKey e ≠ k) →
      (∀ e ∈ tbl, ∃ k0, storedKey e = truncKey k0) →
      tbl.length ≤ MAX_ENTRIES →
      (logKeys l tbl).length = min (tbl.length + l.length) MAX_ENTRIES
  | [], tbl, _, _, _, hle => by simp [logKeys]; omega
  | k :: rest, tbl, hpair, hfresh, hstored, hle => by
    have hpair2 := (List.pairwise_cons.mp hpair).2
    have hhead := (List.pairwise_cons.mp hpair).1
    have hfind : findEntryIdx k.1 k.2 tbl = none := by
      rw [findEntryIdx_eq_none_iff]
      intro e he
      by_contra hcon
      have : entry_matches k.1 k.2 e = true := by
        revert hcon; cases entry_matches k.1 k.2 e <;> simp
      have hk : storedKey e = k := by
        have := entry_matches_iff.mp this
        simpa using this
      exact hfresh k (by simp) e he hk
    by_cases hlen : tbl.length < MAX_ENTRIES
    · have hstep := profiling_log_create hfind hlen 0 0
      have hnew : storedKey (⟨truncName k.1, truncName k.2, 1, 0, 0⟩ : ProfileEntry)
          = truncKey k := by simp [storedKey, truncKey]
      have ihres := logKeys_length rest
        (tbl ++ [⟨truncName k.1, truncName k.2, 1, 0, 0⟩]) hpair2
        (by
          intro k2 hk2 e he
          rcases List.mem_append.mp he with hmem | hmem
          · exact hfresh k2 (by simp [hk2]) e hmem
          · simp at hmem
            subst hmem
            rw [hnew]
            intro hcon
            apply hhead k2 hk2
            calc truncKey k = truncKey (truncKey k) := (truncKey_idem k).symm
              _ = truncKey k2 := by rw [hcon])
        (by
          intro e he
          rcases List.mem_append.mp he with hmem | hmem
          · exact hstored e hmem
          · simp at hmem
            subst hmem
            exact ⟨k, hnew⟩)
        (by simp; omega)
      have hcons : logKeys (k :: rest) tbl =
          logKeys rest (tbl ++ [⟨truncName k.1, truncName k.2, 1, 0, 0⟩]) := by
        simp [logKeys]
        rw [hstep]
      rw [hcons, ihres]
      simp
      omega
    · have hstep := profiling_log_full hfind hlen 0 0
      have ihres := logKeys_length rest tbl hpair2
        (fun k2 hk2 e he => hfresh k2 (by simp [hk2]) e he) hstored hle
      have hcons : logKeys (k :: rest) tbl = logKeys rest tbl := by
        simp [logKeys]
        rw [hstep]
      rw [hcons, ihres]
      omega

theorem sum_map_div (l : List Rat) (d : Rat) :
    (l.map (· / d)).sum = l.sum / d := by
  induction l with
  | nil => simp
  | cons x rest ih =>
    simp [ih]
    rw [div_add_div_same]

theorem sum_counts_mul100 (tbl : ProfileTable) :
    (tbl.map (fun e => (e.count : Rat) * 100)).sum = (total_calls tbl : Rat) * 100 := by
  rw [total_calls_eq_sum]
  induction tbl with
  | nil => simp
  | cons e rest ih =>
    simp only [List.map_cons, List.sum_cons]
    rw [ih]
    push_cast
    ring

theorem pct_sum (tbl : ProfileTable) (h : 0 < total_calls tbl) :
    ((mkReport tbl).profile_data.map (·.percentage_of_total)).sum = 100 := by
  have hT : ((total_calls tbl : Rat)) ≠ 0 := by
    exact_mod_cast Nat.pos_iff_ne_zero.mp h
  have hmap : (mkReport tbl).profile_data.map (·.percentage_of_total) =
      (tbl.map (fun e => (e.count : Rat) * 100)).map (· / (total_calls tbl : Rat)) := by
    simp [mkReport, h, List.map_map]
  rw [hmap, sum_map_div, sum_counts_mul100, mul_comm, mul_div_assoc, div_self hT, mul_one]

theorem consoleEntries_eq_take (total : Nat) :
    ∀ (l : ProfileTable) (i : Nat),
      consoleEntries total i l =
        (l.take (10 - i)).map (fun e =>
          ConsoleLine.entryLine e.caller_name e.api_name e.count
            ((e.count : Rat) * 100 / (total : Rat)))
  | [], i => by simp [consoleEntries]
  | e :: rest, i => by
    by_cases h : i < 10
    · have h10 : 10 - i = (10 - (i + 1)) + 1 := by omega
      rw [h10]
      simp [consoleEntries, h, consoleEntries_eq_take total rest (i + 1)]
    · have h10 : 10 - i = 0 := by omega
      rw [h10]
      simp [consoleEntries, h]

end Runtime

namespace Pass

theorem matchLoop_iff_mem (name : List Char) :
    ∀ apis : List (List Char), matchLoop name apis = true ↔ name ∈ apis
  | [] => by simp [matchLoop]
  | api :: rest => by
    by_cases h : name = api
    · simp [matchLoop, h]
    · have hb : (name == api) = false := by simp [h]
      simp [matchLoop, hb, matchLoop_iff_mem name rest, h]

theorem shouldInstr_iff (i : Instruction) :
    shouldInstr i = true ↔
      ∃ cal ops, i = Instruction.call (some cal) ops ∧ cal.isIntrinsic = false ∧
        cal.name ∈ DangerousAPIs := by
  cases i with
  | call callee ops =>
    cases callee with
    | none => simp [shouldInstr]
    | some cal => simp [shouldInstr, matchLoop_iff_mem, and_comm]
  | hookCall a c => simp [shouldInstr]
  | other t => simp [shouldInstr]

theorem foldl_filter_push (p : Instruction → Bool) :
    ∀ (l : List Instruction) (acc : List Instruction),
      l.foldl (fun a i => if p i then a ++ [i] else a) acc = acc ++ l.filter p
  | [], acc => by simp
  | i :: rest, acc => by
    by_cases h : p i <;>
      simp [List.filter_cons, h, foldl_filter_push p rest]

theorem collectCalls_eq (F : Func) :
    collectCalls F = if F.isDeclaration then []
      else (F.blocks.map (fun bb => bb.insts.filter shouldInstr)).flatten := by
  unfold collectCalls
  by_cases hd : F.isDeclaration
  · simp [hd]
  · simp only [hd, Bool.false_eq_true, if_false]
    have key : ∀ (bs : List BasicBlock) (acc : List Instruction),
        bs.foldl (fun acc2 bb =>
            bb.insts.foldl (fun a i => if shouldInstr i then a ++ [i] else a) acc2) acc
          = acc ++ (bs.map (fun bb => bb.insts.filter shouldInstr)).flatten := by
      intro bs
      induction bs with
      | nil => simp
      | cons bb rest ih =>
        intro acc
        rw [List.foldl_cons, foldl_filter_push, ih, List.map_cons, List.flatten_cons,
          List.append_assoc]
    simpa using key F.blocks []

theorem rewriteInsts_eq_flatMap (caller : List Char) :
    ∀ l : List Instruction,
      rewriteInsts caller l = l.flatMap (fun i =>
        if shouldInstr i then [Instruction.hookCall (calleeNameOf i) caller, i] else [i])
  | [] => by simp [rewriteInsts]
  | i :: rest => by
    by_cases h : shouldInstr i <;>
      simp [rewriteInsts, h, rewriteInsts_eq_flatMap caller rest]

@[simp]
theorem isHook_hookCall (a c : List Char) : isHook (Instruction.hookCall a c) = true := rfl

theorem filter_not_hook_rewriteInsts (caller : List Char) :
    ∀ l : List Instruction, (∀ i ∈ l, isHook i = false) →
      (rewriteInsts caller l).filter (fun i => !isHook i) = l
  | [], _ => by simp [rewriteInsts]
  | i :: rest, h => by
    have hi : isHook i = false := h i (by simp)
    have hrest := filter_not_hook_rewriteInsts caller rest (fun j hj => h j (by simp [hj]))
    by_cases hs : shouldInstr i <;>
      simp [rewriteInsts, hs, List.filter_cons, hi, hrest]

theorem count_hooks_rewriteInsts (caller : List Char) :
    ∀ l : List Instruction, (∀ i ∈ l, isHook i = false) →
      ((rewriteInsts caller l).filter isHook).length = (l.filter shouldInstr).length
  | [], _ => by simp [rewriteInsts]
  | i :: rest, h => by
    have hi : isHook i = false := h i (by simp)
    have hrest := count_hooks_rewriteInsts caller rest (fun j hj => h j (by simp [hj]))
    by_cases hs : shouldInstr i <;>
      simp [rewriteInsts, hs, List.filter_cons, hi, hrest]

theorem rewriteInsts_id (caller : List Char) :
    ∀ l : List Instruction, (∀ i ∈ l, shouldInstr i = false) → rewriteInsts caller l = l
  | [], _ => by simp [rewriteInsts]
  | i :: rest, h => by
    have hi : shouldInstr i = false := h i (by simp)
    simp [rewriteInsts, hi, rewriteInsts_id caller rest (fun j hj => h j (by simp [hj]))]

theorem runFunction_fst (F : Func) :
    (runFunction F).1 = if F.isDeclaration then F
      else { F with blocks := F.blocks.map (fun bb => ⟨rewriteInsts F.name bb.insts⟩) } := by
  unfold runFunction
  by_cases h : F.isDeclaration <;> simp [h]

theorem runFunction_snd (F : Func) :
    (runFunction F).2 = (collectCalls F).map (fun i => (calleeNameOf i, F.name)) := by
  unfold runFunction
  by_cases h : F.isDeclaration <;> simp [h, collectCalls]

theorem runBody_module (M : LLVMModule) :
    (runBody M).1 = ⟨M.functions.map (fun F => (runFunction F).1)⟩ := by
  simp [runBody]

theorem runBody_diags (M : LLVMModule) :
    (runBody M).2.2 = M.functions.flatMap (fun F => (runFunction F).2) := by
  simp only [runBody]
  induction M.functions with
  | nil => simp
  | cons F rest ih => simp_all

theorem runBody_pa (M : LLVMModule) :
    (runBody M).2.1 = if M.functions.any (fun F => !(runFunction F).2.isEmpty)
      then PreservedAnalyses.none else PreservedAnalyses.all := by
  simp [runBody]

theorem modified_iff (M : LLVMModule) :
    M.functions.any (fun F => !(runFunction F).2.isEmpty) = true ↔
      ∃ F ∈ M.functions, collectCalls F ≠ [] := by
  rw [List.any_eq_true]
  simp [runFunction_snd]

theorem runBody_pa_none_iff (M : LLVMModule) :
    (runBody M).2.1 = PreservedAnalyses.none ↔ ∃ F ∈ M.functions, collectCalls F ≠ [] := by
  rw [runBody_pa, ← modified_iff M]
  by_cases h : M.functions.any (fun F => !(runFunction F).2.isEmpty) <;> simp [h]

theorem runFunction_id (F : Func) (h : collectCalls F = []) : (runFunction F).1 = F := by
  rw [runFunction_fst]
  by_cases hd : F.isDeclaration
  · simp [hd]
  · rw [if_neg hd]
    rw [collectCalls_eq, if_neg hd] at h
    have hall : ∀ bb ∈ F.blocks, bb.insts.filter shouldInstr = [] := by
      intro bb hbb
      exact List.flatten_eq_nil_iff.mp h _ (List.mem_map_of_mem _ hbb)
    have hmap : F.blocks.map (fun bb => (⟨rewriteInsts F.name bb.insts⟩ : BasicBlock))
        = F.blocks := by
      have key : ∀ bb ∈ F.blocks, (⟨rewriteInsts F.name bb.insts⟩ : BasicBlock) = bb := by
        intro bb hbb
        have hnone : ∀ i ∈ bb.insts, shouldInstr i = false := by
          intro i hi
          simpa using List.filter_eq_nil_iff.mp (hall bb hbb) i hi
        cases bb with
        | mk insts => simp [rewriteInsts_id F.name insts hnone]
      exact (List.map_congr_left key).trans (List.map_id F.blocks)
    rw [hmap]

theorem runBody_all_unchanged (M : LLVMModule) (h : (runBody M).2.1 = PreservedAnalyses.all) :
    (runBody M).1 = M := by
  have hno : ∀ F ∈ M.functions, collectCalls F = [] := by
    intro F hF
    by_contra hcon
    have : (runBody M).2.1 = PreservedAnalyses.none := (runBody_pa_none_iff M).mpr ⟨F, hF, hcon⟩
    rw [h] at this
    exact PreservedAnalyses.noConfusion this
  rw [runBody_module]
  have : M.functions.map (fun F => (runFunction F).1) = M.functions := by
    calc M.functions.map (fun F => (runFunction F).1)
        = M.functions.map id := List.map_congr_left (fun F hF => runFunction_id F (hno F hF))
      _ = M.functions := List.map_id M.functions
  rw [this]

theorem countHooks_runBody (M : LLVMModule) (h : HookFree M) :
    countHooks (runBody M).1 = totalSites M := by
  rw [runBody_module]
  unfold countHooks totalSites
  simp only [List.map_map]
  congr 1
  apply List.map_congr_left
  intro F hF
  simp only [Function.comp]
  rw [runFunction_fst]
  by_cases hd : F.isDeclaration
  · simp only [hd, if_true]
    rw [collectCalls_eq]
    simp only [hd, if_true, List.length_nil]
    apply List.sum_eq_zero
    intro x hx
    obtain ⟨bb, hbb, rfl⟩ := List.mem_map.mp hx
    have : bb.insts.filter isHook = [] := by
      apply List.filter_eq_nil_iff.mpr
      intro i hi
      simp [h F hF bb hbb i hi]
    simp [this]
  · simp only [hd, Bool.false_eq_true, if_false]
    rw [collectCalls_eq]
    simp only [hd, Bool.false_eq_true, if_false]
    rw [List.length_flatten]
    simp only [List.map_map]
    congr 1
    apply List.map_congr_left
    intro bb hbb
    simp only [Function.comp]
    exact count_hooks_rewriteInsts F.name bb.insts (fun i hi => h F hF bb hbb i hi)

theorem eraseHooksFunc (F : Func)
    (hf : ∀ bb ∈ F.blocks, ∀ i ∈ bb.insts, isHook i = false) :
    Func.mk (runFunction F).1.name (runFunction F).1.isDeclaration
      ((runFunction F).1.blocks.map (fun bb => ⟨bb.insts.filter (fun i => !isHook i)⟩))
      = F := by
  rw [runFunction_fst]
  by_cases hd : F.isDeclaration
  · rw [if_pos hd]
    have hmap : F.blocks.map
        (fun bb => (⟨bb.insts.filter (fun i => !isHook i)⟩ : BasicBlock)) = F.blocks := by
      have key : ∀ bb ∈ F.blocks,
          (⟨bb.insts.filter (fun i => !isHook i)⟩ : BasicBlock) = bb := by
        intro bb hbb
        have heq : bb.insts.filter (fun i => !isHook i) = bb.insts :=
          List.filter_eq_self.mpr (fun i hi => by simp [hf bb hbb i hi])
        cases bb with
        | mk insts => simpa using heq
      exact (List.map_congr_left key).trans (List.map_id F.blocks)
    rw [hmap]
  · rw [if_neg hd]
    show Func.mk F.name F.isDeclaration
      ((F.blocks.map (fun bb => (⟨rewriteInsts F.name bb.insts⟩ : BasicBlock))).map
        (fun bb => ⟨bb.insts.filter (fun i => !isHook i)⟩)) = F
    rw [List.map_map]
    have hmap : F.blocks.map
        ((fun bb => (⟨bb.insts.filter (fun i => !isHook i)⟩ : BasicBlock)) ∘
          (fun bb => (⟨rewriteInsts F.name bb.insts⟩ : BasicBlock))) = F.blocks := by
      have key : ∀ bb ∈ F.blocks,
          ((fun bb => (⟨bb.insts.filter (fun i => !isHook i)⟩ : BasicBlock)) ∘
            (fun bb => (⟨rewriteInsts F.name bb.insts⟩ : BasicBlock))) bb = bb := by
        intro bb hbb
        simp only [Function.comp]
        have heq := filter_not_hook_rewriteInsts F.name bb.insts
          (fun i hi => hf bb hbb i hi)
        cases bb with
        | mk insts => simpa using heq
      exact (List.map_congr_left key).trans (List.map_id F.blocks)
    rw [hmap]

theorem eraseHooks_runBody (M : LLVMModule) (h : HookFree M) :
    eraseHooks (runBody M).1 = M := by
  rw [runBody_module]
  unfold eraseHooks
  simp only [List.map_map]
  have hfun : ∀ F ∈ M.functions,
      Func.mk (runFunction F).1.name (runFunction F).1.isDeclaration
        ((runFunction F).1.blocks.map (fun bb => ⟨bb.insts.filter (fun i => !isHook i)⟩))
        = F :=
    fun F hF => eraseHooksFunc F (fun bb hbb i hi => h F hF bb hbb i hi)
  exact congrArg LLVMModule.mk ((List.map_congr_left hfun).trans (List.map_id M.functions))

theorem getOrInsertFunction_cases (name : List Char) (M : LLVMModule) :
    getOrInsertFunction name M = M ∨
      getOrInsertFunction name M = ⟨M.functions ++ [⟨name, true, []⟩]⟩ := by
  unfold getOrInsertFunction
  by_cases h : M.functions.any (fun F => F.name == name) <;> simp [h]

theorem collectCalls_decl {F : Func} (h : F.isDeclaration = true) :
    collectCalls F = [] := by
  simp [collectCalls, h]

theorem exists_collect_getOrInsert (name : List Char) (M : LLVMModule) :
    (∃ F ∈ (getOrInsertFunction name M).functions, collectCalls F ≠ []) ↔
      ∃ F ∈ M.functions, collectCalls F ≠ [] := by
  rcases getOrInsertFunction_cases name M with h | h <;> rw [h]
  constructor
  · rintro ⟨F, hF, hne⟩
    rcases List.mem_append.mp hF with hmem | hmem
    · exact ⟨F, hmem, hne⟩
    · simp at hmem
      subst hmem
      exact absurd (collectCalls_decl rfl) hne
  · rintro ⟨F, hF, hne⟩
    exact ⟨F, List.mem_append.mpr (Or.inl hF), hne⟩

theorem totalSites_getOrInsert (name : List Char) (M : LLVMModule) :
    totalSites (getOrInsertFunction name M) = totalSites M := by
  rcases getOrInsertFunction_cases name M with h | h <;> rw [h]
  simp [totalSites, collectCalls]

theorem diags_getOrInsert (name : List Char) (M : LLVMModule) :
    (getOrInsertFunction name M).functions.flatMap (fun F => (runFunction F).2) =
      M.functions.flatMap (fun F => (runFunction F).2) := by
  rcases getOrInsertFunction_cases name M with h | h <;> rw [h]
  simp [runFunction]

theorem hookFree_getOrInsert (name : List Char) (M : LLVMModule) (h : HookFree M) :
    HookFree (getOrInsertFunction name M) := by
  rcases getOrInsertFunction_cases name M with he | he <;> rw [he]
  · exact h
  · intro F hF bb hbb i hi
    rcases List.mem_append.mp hF with hmem | hmem
    · exact h F hmem bb hbb i hi
    · simp at hmem
      subst hmem
      simp at hbb

end Pass

theorem wkey_trunc {n : Nat} (hn : n < 1025) : Runtime.truncKey (wkey n) = wkey n := by
  unfold wkey Runtime.truncKey
  have h1 : (List.replicate (n / 255 + 1) 'a').length < Runtime.MAX_NAME_LEN := by
    simp [Runtime.MAX_NAME_LEN]
    omega
  have h2 : (List.replicate (n % 255 + 1) 'b').length < Runtime.MAX_NAME_LEN := by
    simp [Runtime.MAX_NAME_LEN]
    omega
  simp [Runtime.truncName_eq_self h1, Runtime.truncName_eq_self h2]

theorem wkey_inj {m n : Nat} (h : wkey m = wkey n) : m = n := by
  unfold wkey at h
  rw [Prod.ext_iff] at h
  have e1 : m / 255 + 1 = n / 255 + 1 := by
    have := congrArg List.length h.1
    simpa using this
  have e2 : m % 255 + 1 = n % 255 + 1 := by
    have := congrArg List.length h.2
    simpa using this
  omega

theorem wkeys_pairwise :
    wkeys.Pairwise (fun k1 k2 => Runtime.truncKey k1 ≠ Runtime.truncKey k2) := by
  unfold wkeys
  rw [List.pairwise_map]
  have base : (List.range (Runtime.MAX_ENTRIES + 1)).Pairwise (· < ·) :=
    List.pairwise_lt_range _
  refine base.imp_of_mem ?_
  intro m n hm hn hlt
  have hm2 : m < 1025 := by simpa [Runtime.MAX_ENTRIES] using List.mem_range.mp hm
  have hn2 : n < 1025 := by simpa [Runtime.MAX_ENTRIES] using List.mem_range.mp hn
  rw [wkey_trunc hm2, wkey_trunc hn2]
  intro hcon
  exact absurd (wkey_inj hcon) (by omega)

theorem wtbl_eq : wtbl = [⟨['a'], ['f'], 1, 0, 1⟩] := by
  unfold wtbl
  rw [Runtime.profiling_log_create
    (show Runtime.findEntryIdx ['a'] ['f'] [] = none from rfl)
    (by simp [Runtime.MAX_ENTRIES])]
  decide

theorem wtbl_reachable : Runtime.ReachableAt 1 wtbl :=
  Runtime.ReachableAt.step ['a'] ['f'] Runtime.ReachableAt.init (Nat.le_refl 0) (Nat.zero_le 1)

set_option maxRecDepth 8000 in
/-- C1 counterexample: with an api name of length 256 (one past the stored
bound), two log_call invocations of the same key pair create two distinct
entries, each with count 1, both carrying the same truncated key — not a
single entry with count 2. The lookup compares the truncated stored name
against the untruncated input, so it never matches. -/
theorem long_name_duplicate_entries :
    (Runtime.logRun (List.replicate 256 'a') ['f'] [(0, 0), (1, 1)] []).length = 2 ∧
    (Runtime.logRun (List.replicate 256 'a') ['f'] [(0, 0), (1, 1)] []).countP
      (fun e => e.api_name == Runtime.truncName (List.replicate 256 'a') &&
        e.caller_name == Runtime.truncName ['f']) = 2 ∧
    ∀ e ∈ Runtime.logRun (List.replicate 256 'a') ['f'] [(0, 0), (1, 1)] [],
      e.count = 1 := by
  refine ⟨?_, ?_, ?_⟩ <;> decide

/-- C1 (amended): for name strings strictly shorter than MAX_NAME_LEN (so
that truncation is the identity on them), calling log_call(a, c) N ≥ 1
times with no other calls produces exactly one Profile Entry; its key is
(a, c), equal to its own truncation, and its count is N, never N
entries. -/
theorem repeated_log_call_single_entry
    (a c : List Char) (ha : a.length < Runtime.MAX_NAME_LEN)
    (hc : c.length < Runtime.MAX_NAME_LEN)
    (ts : List (Nat × Nat)) (hts : ts ≠ []) :
    Runtime.truncName a = a ∧ Runtime.truncName c = c ∧
    ∃ f1 l1, Runtime.logRun a c ts [] = [⟨a, c, ts.length, f1, l1⟩] := by
  refine ⟨Runtime.truncName_eq_self ha, Runtime.truncName_eq_self hc, ?_⟩
  cases ts with
  | nil => exact absurd rfl hts
  | cons p rest =>
    have hstep : Runtime.profiling_log a c p.1 p.2 [] = [⟨a, c, 1, p.1, p.2⟩] := by
      rw [Runtime.profiling_log_create
        (show Runtime.findEntryIdx a c [] = none from rfl)
        (by simp [Runtime.MAX_ENTRIES])]
      simp [Runtime.truncName_eq_self ha, Runtime.truncName_eq_self hc]
    obtain ⟨l1, h1⟩ := Runtime.logRun_singleton a c rest 1 p.1 p.2
    refine ⟨p.1, l1, ?_⟩
    calc Runtime.logRun a c (p :: rest) []
        = Runtime.logRun a c rest (Runtime.profiling_log a c p.1 p.2 []) := by
          simp [Runtime.logRun]
      _ = Runtime.logRun a c rest [⟨a, c, 1, p.1, p.2⟩] := by rw [hstep]
      _ = [⟨a, c, 1 + rest.length, p.1, l1⟩] := h1
      _ = [⟨a, c, (p :: rest).length, p.1, l1⟩] := by simp [Nat.add_comm]

/-- C1 witness: two calls with the one-character names x and y produce the
single entry with count 2. -/
theorem repeated_log_call_single_entry_witness :
    Runtime.truncName ['x'] = ['x'] ∧ Runtime.truncName ['y'] = ['y'] ∧
    ∃ f1 l1, Runtime.logRun ['x'] ['y'] [(0, 1), (2, 3)] [] = [⟨['x'], ['y'], 2, f1, l1⟩] :=
  repeated_log_call_single_entry ['x'] ['y'] (by decide) (by decide)
    [(0, 1), (2, 3)] (by decide)

/-- C2: the Profile Table never exceeds MAX_ENTRIES and never shrinks.
Logging more than 1024 pairwise-distinct keys (distinct after truncation)
starting from the empty table yields exactly 1024 entries; a log_call on a
full table whose key is absent returns the table unchanged (silent drop,
no error value exists); a log_call on a full table whose key is present
keeps the length and increments that entry count; and one log_call never
decreases the length nor pushes it past MAX_ENTRIES. -/
theorem profile_table_capacity :
    (∀ l : List ((List Char) × (List Char)),
        l.Pairwise (fun k1 k2 => Runtime.truncKey k1 ≠ Runtime.truncKey k2) →
        Runtime.MAX_ENTRIES < l.length →
        (Runtime.logKeys l []).length = Runtime.MAX_ENTRIES) ∧
    (∀ (a c : List Char) (t1 t2 : Nat) (st : Runtime.ProfileTable),
        st.length = Runtime.MAX_ENTRIES →
        Runtime.findEntryIdx a c st = none →
        Runtime.profiling_log a c t1 t2 st = st) ∧
    (∀ (a c : List Char) (t1 t2 : Nat) (st : Runtime.ProfileTable) (i : Nat),
        st.length = Runtime.MAX_ENTRIES →
        Runtime.findEntryIdx a c st = some i →
        (Runtime.profiling_log a c t1 t2 st).length = st.length ∧
        ∃ e, st[i]? = some e ∧
          (Runtime.profiling_log a c t1 t2 st)[i]? = some (Runtime.upd_entry t2 e)) ∧
    (∀ (a c : List Char) (t1 t2 : Nat) (st : Runtime.ProfileTable),
        st.length ≤ (Runtime.profiling_log a c t1 t2 st).length ∧
        (st.length ≤ Runtime.MAX_ENTRIES →
          (Runtime.profiling_log a c t1 t2 st).length ≤ Runtime.MAX_ENTRIES)) := by
  refine ⟨?_, ?_, ?_, ?_⟩
  · intro l hpair hlen
    have := Runtime.logKeys_length l [] hpair (by simp) (by simp) (by simp)
    rw [this]
    simp
    omega
  · intro a c t1 t2 st hfullen hnone
    exact Runtime.profiling_log_full hnone (by omega) t1 t2
  · intro a c t1 t2 st i hfullen hsome
    rw [Runtime.profiling_log_found hsome]
    obtain ⟨hlt, e, he, hm⟩ := Runtime.findEntryIdx_some hsome
    refine ⟨Runtime.length_modifyIdx _ i st, e, he, ?_⟩
    rw [Runtime.getElem?_modifyIdx, if_pos rfl, he]
    rfl
  · intro a c t1 t2 st
    exact ⟨Runtime.length_le_profiling_log a c t1 t2 st,
      fun hle => Runtime.profiling_log_le_max a c t1 t2 st hle⟩

/-- C2 witness: the 1025-key family fills the table to exactly 1024; the
full table wfull silently drops the unknown key q and updates the known
key z; and lengths are monotone. -/
theorem profile_table_capacity_witness :
    (Runtime.logKeys wkeys []).length = Runtime.MAX_ENTRIES ∧
    Runtime.profiling_log ['q'] ['q'] 5 6 wfull = wfull ∧
    ((Runtime.profiling_log ['z'] ['z'] 5 6 wfull).length = wfull.length ∧
      ∃ e, wfull[0]? = some e ∧
        (Runtime.profiling_log ['z'] ['z'] 5 6 wfull)[0]? =
          some (Runtime.upd_entry 6 e)) ∧
    wfull.length ≤ (Runtime.profiling_log ['q'] ['q'] 5 6 wfull).length := by
  have hqnone : Runtime.findEntryIdx ['q'] ['q'] wfull = none := by
    rw [Runtime.findEntryIdx_eq_none_iff]
    intro e he
    rw [List.eq_of_mem_replicate he]
    decide
  have hzsome : Runtime.findEntryIdx ['z'] ['z'] wfull = some 0 := rfl
  refine ⟨?_, ?_, ?_, ?_⟩
  · exact profile_table_capacity.1 wkeys wkeys_pairwise
      (by simp [wkeys, Runtime.MAX_ENTRIES])
  · exact profile_table_capacity.2.1 ['q'] ['q'] 5 6 wfull
      (by simp [wfull]) hqnone
  · exact profile_table_capacity.2.2.1 ['z'] ['z'] 5 6 wfull 0
      (by simp [wfull]) hzsome
  · exact (profile_table_capacity.2.2.2 ['q'] ['q'] 5 6 wfull).1

/-- C3: the scan phase records an instruction exactly when its enclosing
function has a body, the instruction is a call whose callee is statically
known and not an intrinsic, and the callee name is a member of the
Target API Set; and a declaration-only function produces no diagnostic
output at all. Indirect calls (no statically known callee) and intrinsic
calls never satisfy the right-hand side. -/
theorem scan_records_iff (F : Pass.Func) (i : Pass.Instruction) :
    (i ∈ Pass.collectCalls F ↔
      F.isDeclaration = false ∧
      ∃ bb ∈ F.blocks, i ∈ bb.insts ∧
        ∃ cal ops, i = Pass.Instruction.call (some cal) ops ∧
          cal.isIntrinsic = false ∧ cal.name ∈ Pass.DangerousAPIs) ∧
    (F.isDeclaration = true → (Pass.runFunction F).2 = []) := by
  constructor
  · rw [Pass.collectCalls_eq]
    by_cases hd : F.isDeclaration
    · simp [hd]
    · have hd2 : F.isDeclaration = false := by simpa using hd
      rw [if_neg hd]
      simp only [List.mem_flatten, List.mem_map, List.mem_filter, hd2, true_and]
      constructor
      · rintro ⟨s, ⟨bb, hbb, rfl⟩, hi⟩
        rcases List.mem_filter.mp hi with ⟨hmem, hsi⟩
        exact ⟨bb, hbb, hmem, (Pass.shouldInstr_iff i).mp hsi⟩
      · rintro ⟨bb, hbb, hmem, hcond⟩
        exact ⟨bb.insts.filter Pass.shouldInstr, ⟨bb, hbb, rfl⟩,
          List.mem_filter.mpr ⟨hmem, (Pass.shouldInstr_iff i).mpr hcond⟩⟩
  · intro hd
    simp [Pass.runFunction, hd]

/-- C3 witness: the declaration-only function wFdecl, despite carrying a
strcpy call instruction, yields no diagnostics. -/
theorem scan_records_iff_witness : (Pass.runFunction wFdecl).2 = [] :=
  (scan_records_iff wFdecl (Pass.Instruction.other 0)).2 rfl

/-- C4 counterexample: on the hook-free, match-free module wM0, which
has no function named profiling_log, the pass returns
PreservedAnalyses.all and yet the module it returns differs from its
input: the unconditional M.getOrInsertFunction call has appended the
profiling_log prototype declaration before any scan. This refutes the
claim that the program representation is unmodified whenever
modified=false is reported. -/
theorem prototype_insertion_modifies_module :
    (Pass.run wM0).2.1 = Pass.PreservedAnalyses.all ∧ (Pass.run wM0).1 ≠ wM0 := by
  refine ⟨?_, ?_⟩ <;> decide

/-- C4 (amended): the pass first get-or-inserts the profiling_log
prototype, appending a declaration to any module lacking one — this
happens regardless of matches and does not set the Modified flag. Let M1
be the module after that insertion. Then: the output is, function by
function, M1 with exactly one hookCall carrying (callee name, enclosing
function name) inserted immediately before each matching call and
nothing else changed; on hook-free input, erasing the hooks recovers M1
exactly and the number of inserted hooks equals the number of recorded
call sites; the pass returns PreservedAnalyses.none exactly when at
least one call site of the input module was recorded; when it returns
PreservedAnalyses.all the output is M1, the input unmodified except for
the prototype insertion; and the diagnostics list one line per recorded
call site of the input. -/
theorem rewrite_inserts_hook (M : Pass.LLVMModule) :
    ((Pass.run M).1.functions =
      (Pass.getOrInsertFunction Pass.profiling_log_name M).functions.map (fun F =>
        if F.isDeclaration then F
        else { F with blocks := F.blocks.map (fun bb =>
          ⟨bb.insts.flatMap (fun i =>
            if Pass.shouldInstr i then
              [Pass.Instruction.hookCall (Pass.calleeNameOf i) F.name, i]
            else [i])⟩) })) ∧
    (Pass.HookFree M →
      Pass.eraseHooks (Pass.run M).1 =
          Pass.getOrInsertFunction Pass.profiling_log_name M ∧
        Pass.countHooks (Pass.run M).1 = Pass.totalSites M) ∧
    ((Pass.run M).2.1 = Pass.PreservedAnalyses.none ↔
        ∃ F ∈ M.functions, Pass.collectCalls F ≠ []) ∧
    ((Pass.run M).2.1 = Pass.PreservedAnalyses.all →
      (Pass.run M).1 = Pass.getOrInsertFunction Pass.profiling_log_name M) ∧
    ((Pass.run M).2.2 = M.functions.flatMap (fun F =>
        (Pass.collectCalls F).map (fun i => (Pass.calleeNameOf i, F.name)))) := by
  simp only [Pass.run]
  refine ⟨?_, ?_, ?_, ?_, ?_⟩
  · rw [Pass.runBody_module]
    apply List.map_congr_left
    intro F _
    rw [Pass.runFunction_fst]
    by_cases hd : F.isDeclaration
    · simp [hd]
    · rw [if_neg hd, if_neg hd]
      congr 1
      apply List.map_congr_left
      intro bb _
      rw [Pass.rewriteInsts_eq_flatMap]
  · intro hfree
    have hfree1 := Pass.hookFree_getOrInsert Pass.profiling_log_name M hfree
    exact ⟨Pass.eraseHooks_runBody _ hfree1,
      (Pass.countHooks_runBody _ hfree1).trans
        (Pass.totalSites_getOrInsert Pass.profiling_log_name M)⟩
  · rw [Pass.runBody_pa_none_iff]
    exact Pass.exists_collect_getOrInsert Pass.profiling_log_name M
  · exact Pass.runBody_all_unchanged _
  · rw [Pass.runBody_diags, Pass.diags_getOrInsert]
    simp only [Pass.runFunction_snd]

/-- C4 witness: on the one-strcpy module wM1 the hooks erase back to the
post-insertion module, one hook was inserted for the one recorded site,
and the pass reports none-preserved; on the match-free module wM0 the
pass reports all-preserved and returns exactly the post-insertion
module. -/
theorem rewrite_inserts_hook_witness :
    (Pass.eraseHooks (Pass.run wM1).1 =
        Pass.getOrInsertFunction Pass.profiling_log_name wM1 ∧
      Pass.countHooks (Pass.run wM1).1 = Pass.totalSites wM1) ∧
    (Pass.run wM1).2.1 = Pass.PreservedAnalyses.none ∧
    (Pass.run wM0).1 = Pass.getOrInsertFunction Pass.profiling_log_name wM0 :=
  ⟨(rewrite_inserts_hook wM1).2.1 (by decide),
   ((rewrite_inserts_hook wM1).2.2.1).mpr (by decide),
   (rewrite_inserts_hook wM0).2.2.2.1 (by decide)⟩

/-- C5: on the recorded entry a log_call replaces count by count + 1 (a
strict increase); no entry of the table ever sees its count decrease
across a log_call; and on every table reachable under a monotonic clock,
first_call is at most last_call for every entry. -/
theorem count_strictly_increases
    (a c : List Char) (t1 t2 : Nat) (tbl : Runtime.ProfileTable) :
    (∀ i, Runtime.findEntryIdx a c tbl = some i →
      ∃ e, tbl[i]? = some e ∧
        (Runtime.profiling_log a c t1 t2 tbl)[i]? = some (Runtime.upd_entry t2 e) ∧
        e.count < (Runtime.upd_entry t2 e).count) ∧
    (∀ (j : Nat) (e1 e2 : Runtime.ProfileEntry), tbl[j]? = some e1 →
      (Runtime.profiling_log a c t1 t2 tbl)[j]? = some e2 → e1.count ≤ e2.count) ∧
    (∀ T, Runtime.ReachableAt T tbl → ∀ e ∈ tbl, e.first_call ≤ e.last_call) := by
  refine ⟨?_, ?_, ?_⟩
  · intro i hi
    obtain ⟨hlt, e, he, hm⟩ := Runtime.findEntryIdx_some hi
    refine ⟨e, he, ?_, by simp [Runtime.upd_entry]⟩
    rw [Runtime.profiling_log_found hi, Runtime.getElem?_modifyIdx, if_pos rfl, he]
    rfl
  · intro j e1 e2 h1 h2
    have hjlen : j < tbl.length := by
      by_contra hc
      rw [List.getElem?_eq_none (by omega)] at h1
      exact Option.noConfusion h1
    cases hf : Runtime.findEntryIdx a c tbl with
    | some i =>
      rw [Runtime.profiling_log_found hf, Runtime.getElem?_modifyIdx] at h2
      by_cases hij : i = j
      · rw [if_pos hij, h1] at h2
        simp only [Option.map_some'] at h2
        cases h2
        simp [Runtime.upd_entry]
      · rw [if_neg hij, h1] at h2
        cases h2
        exact le_refl _
    | none =>
      by_cases hlen : tbl.length < Runtime.MAX_ENTRIES
      · rw [Runtime.profiling_log_create hf hlen, List.getElem?_append,
          if_pos hjlen, h1] at h2
        cases h2
        exact le_refl _
      · rw [Runtime.profiling_log_full hf hlen, h1] at h2
        cases h2
        exact le_refl _
  · intro T hr e he
    exact (Runtime.reachable_inv hr e he).2.1

/-- C5 witness: on the one-entry reachable table wtbl, a further call on
the same key maps entry 0 to its updated copy with count 2 > 1, counts do
not decrease, and first_call ≤ last_call holds. -/
theorem count_strictly_increases_witness :
    (∃ e, wtbl[0]? = some e ∧
      (Runtime.profiling_log ['a'] ['f'] 2 3 wtbl)[0]? = some (Runtime.upd_entry 3 e) ∧
      e.count < (Runtime.upd_entry 3 e).count) ∧
    ((⟨['a'], ['f'], 1, 0, 1⟩ : Runtime.ProfileEntry).count ≤
      (Runtime.upd_entry 3 ⟨['a'], ['f'], 1, 0, 1⟩).count) ∧
    (∀ e ∈ wtbl, e.first_call ≤ e.last_call) := by
  have hfind : Runtime.findEntryIdx ['a'] ['f'] wtbl = some 0 := by
    rw [wtbl_eq]
    rfl
  refine ⟨(count_strictly_increases ['a'] ['f'] 2 3 wtbl).1 0 hfind, ?_, ?_⟩
  · refine (count_strictly_increases ['a'] ['f'] 2 3 wtbl).2.1 0
      ⟨['a'], ['f'], 1, 0, 1⟩ (Runtime.upd_entry 3 ⟨['a'], ['f'], 1, 0, 1⟩) ?_ ?_
    · rw [wtbl_eq]
      rfl
    · rw [Runtime.profiling_log_found hfind, Runtime.getElem?_modifyIdx, if_pos rfl,
        wtbl_eq]
      rfl
  · exact (count_strictly_increases ['a'] ['f'] 2 3 wtbl).2.2 1 wtbl_reachable

/-- C6: in the written report, total_dangerous_calls is the sum of the
counts, unique_call_sites is the number of entries, every entry
percentage is count*100/total under the positivity guard and 0 otherwise,
the percentages sum to exactly 100 in rational arithmetic whenever the
total is positive, and they are all 0 when the total is 0. -/
theorem report_totals (tbl : Runtime.ProfileTable) :
    (Runtime.write_profile_data true tbl).jsonOut = some (Runtime.mkReport tbl) ∧
    (Runtime.mkReport tbl).total_dangerous_calls = (tbl.map (·.count)).sum ∧
    (Runtime.mkReport tbl).unique_call_sites = tbl.length ∧
    ((Runtime.mkReport tbl).profile_data.map (·.percentage_of_total) =
      tbl.map (fun e => if 0 < Runtime.total_calls tbl then
        ((e.count : Rat) * 100) / (Runtime.total_calls tbl : Rat) else 0)) ∧
    (0 < Runtime.total_calls tbl →
      ((Runtime.mkReport tbl).profile_data.map (·.percentage_of_total)).sum = 100) ∧
    (Runtime.total_calls tbl = 0 →
      ∀ re ∈ (Runtime.mkReport tbl).profile_data, re.percentage_of_total = 0) := by
  refine ⟨rfl, Runtime.total_calls_eq_sum tbl, rfl, ?_, Runtime.pct_sum tbl, ?_⟩
  · simp [Runtime.mkReport, List.map_map]
  · intro h0 re hre
    simp [Runtime.mkReport, h0] at hre
    obtain ⟨e, he, rfl⟩ := hre
    simp [h0]

/-- C6 witness: a table with counts 2 and 1 has total 3, two sites, and
percentages summing to 100; the empty table has total 0 and no nonzero
percentage. -/
theorem report_totals_witness :
    ((Runtime.mkReport wtbl6).profile_data.map (·.percentage_of_total)).sum = 100 ∧
    (∀ re ∈ (Runtime.mkReport ([] : Runtime.ProfileTable)).profile_data,
      re.percentage_of_total = 0) :=
  ⟨(report_totals wtbl6).2.2.2.2.1 (by decide),
   (report_totals ([] : Runtime.ProfileTable)).2.2.2.2.2 rfl⟩

/-- C7: the console summary is the header, the total call count, the
unique site count, the output path and the top-sites header, followed by
the first min(10, n) entries in table (insertion) order, not sorted by
count; when the table holds more than 10 entries exactly the 10
earliest-inserted entries are printed. -/
theorem console_first_ten (tbl : Runtime.ProfileTable) :
    (Runtime.write_profile_data true tbl).consoleOut =
      Runtime.ConsoleLine.header
        :: Runtime.ConsoleLine.totalLine (Runtime.total_calls tbl)
        :: Runtime.ConsoleLine.uniqueLine tbl.length
        :: Runtime.ConsoleLine.pathLine
        :: Runtime.ConsoleLine.topHeader
        :: (tbl.take 10).map (fun e =>
            Runtime.ConsoleLine.entryLine e.caller_name e.api_name e.count
              ((e.count : Rat) * 100 / (Runtime.total_calls tbl : Rat))) ∧
    (10 < tbl.length →
      (tbl.take 10).length = 10 ∧ ∀ k < 10, (tbl.take 10)[k]? = tbl[k]?) := by
  constructor
  · show Runtime.consoleOutput tbl = _
    unfold Runtime.consoleOutput
    have := Runtime.consoleEntries_eq_take (Runtime.total_calls tbl) tbl 0
    simpa using this
  · intro h10
    constructor
    · rw [List.length_take]
      omega
    · intro k hk
      rw [List.getElem?_take, if_pos hk]

/-- C7 witness: on the twelve-entry table wtbl7, exactly the 10 earliest
entries are printed. -/
theorem console_first_ten_witness :
    (wtbl7.take 10).length = 10 ∧ ∀ k < 10, (wtbl7.take 10)[k]? = wtbl7[k]? :=
  (console_first_ten wtbl7).2 (by simp [wtbl7])

/-- C8: when the output file cannot be opened, the exit handler writes
exactly the error message to stderr, produces no report, prints no
console summary, and leaves the Profile Table unchanged. -/
theorem exit_open_failure (tbl : Runtime.ProfileTable) (openOk : Bool)
    (h : openOk = false) :
    (Runtime.write_profile_data openOk tbl).errOut = [Runtime.ErrMsg.couldNotOpenOutput] ∧
    (Runtime.write_profile_data openOk tbl).jsonOut = none ∧
    (Runtime.write_profile_data openOk tbl).consoleOut = [] ∧
    (Runtime.write_profile_data openOk tbl).tableAfter = tbl := by
  subst h
  simp [Runtime.write_profile_data]

/-- C8 witness: the failure branch on the one-entry table wtbl6. -/
theorem exit_open_failure_witness :
    (Runtime.write_profile_data false wtbl6).errOut = [Runtime.ErrMsg.couldNotOpenOutput] ∧
    (Runtime.write_profile_data false wtbl6).jsonOut = none ∧
    (Runtime.write_profile_data false wtbl6).consoleOut = [] ∧
    (Runtime.write_profile_data false wtbl6).tableAfter = wtbl6 :=
  exit_open_failure wtbl6 false rfl

/-- C9: the log_call that creates an entry also increments its count to 1
and sets its last_call in the same invocation; hence on every reachable
table each entry has count at least 1, ordered timestamps, and a
nonnegative duration. -/
theorem creation_initializes (a c : List Char) (t1 t2 : Nat)
    (tbl : Runtime.ProfileTable) :
    (Runtime.findEntryIdx a c tbl = none → tbl.length < Runtime.MAX_ENTRIES →
      Runtime.profiling_log a c t1 t2 tbl =
        tbl ++ [⟨Runtime.truncName a, Runtime.truncName c, 1, t1, t2⟩]) ∧
    (∀ T, Runtime.ReachableAt T tbl →
      ∀ e ∈ tbl, 1 ≤ e.count ∧ e.first_call ≤ e.last_call ∧
        0 ≤ Runtime.time_diff_ms e.first_call e.last_call) := by
  constructor
  · intro hnone hlen
    exact Runtime.profiling_log_create hnone hlen t1 t2
  · intro T hr e he
    obtain ⟨h1, h2, h3⟩ := Runtime.reachable_inv hr e he
    refine ⟨h1, h2, ?_⟩
    simp only [Runtime.time_diff_ms]
    omega

/-- C9 witness: creating the entry for key (x, y) from the empty table
yields the entry with count 1 and last_call set, and the reachable table
wtbl satisfies the per-entry facts. -/
theorem creation_initializes_witness :
    Runtime.profiling_log ['x'] ['y'] 4 5 [] =
      [⟨Runtime.truncName ['x'], Runtime.truncName ['y'], 1, 4, 5⟩] ∧
    (∀ e ∈ wtbl, 1 ≤ e.count ∧ e.first_call ≤ e.last_call ∧
      0 ≤ Runtime.time_diff_ms e.first_call e.last_call) :=
  ⟨(creation_initializes ['x'] ['y'] 4 5 []).1 rfl (by simp [Runtime.MAX_ENTRIES]),
   (creation_initializes ['x'] ['y'] 4 5 wtbl).2 1 wtbl_reachable⟩

/-- C10: on every reachable table, whenever the console top-sites loop
runs (the table is nonempty) the divisor total_calls is at least the
number of entries and strictly positive, so the unguarded console
division never divides by zero; and the report percentage guard forces 0
whenever the total is 0, so the guarded division is never taken there. -/
theorem exit_divisions_safe (T : Nat) (tbl : Runtime.ProfileTable)
    (h : Runtime.ReachableAt T tbl) :
    (tbl ≠ [] → tbl.length ≤ Runtime.total_calls tbl ∧ 0 < Runtime.total_calls tbl) ∧
    (∀ re ∈ (Runtime.mkReport tbl).profile_data,
      Runtime.total_calls tbl = 0 → re.percentage_of_total = 0) := by
  constructor
  · intro hne
    have hcounts : ∀ e ∈ tbl, 1 ≤ e.count :=
      fun e he => (Runtime.reachable_inv h e he).1
    have hlen := Runtime.length_le_total_calls hcounts
    have hpos : 0 < tbl.length := List.length_pos.mpr hne
    exact ⟨hlen, by omega⟩
  · intro re hre h0
    simp [Runtime.mkReport, h0] at hre
    obtain ⟨e, he, rfl⟩ := hre
    simp [h0]

/-- C10 witness: the reachable one-entry table wtbl is nonempty and its
total call count is positive and at least its length. -/
theorem exit_divisions_safe_witness :
    wtbl.length ≤ Runtime.total_calls wtbl ∧ 0 < Runtime.total_calls wtbl :=
  (exit_divisions_safe 1 wtbl wtbl_reachable).1 (by rw [wtbl_eq]; decide)

end DynApiProfile
